import Mathlib

/-
Verification development for the gtree repository (src/tree.rs, src/cursor.rs).

Embedding notes.  The Rust code stores a tree of heap nodes
(`Node { father, childs, elem }`) and a `Tree { root, current }` holding two raw
pointers into that graph.  We embed the node graph as a rose tree `GNode`
(the father back-links are implicit: the father of the node at path `p ++ [i]`
is the node at path `p`).  A pointer into the graph is embedded as the path of
child indices from the root, so `Tree.current : Option (List Nat)` mirrors the
`current: Link<T>` field, and pointer identity between live nodes corresponds
to path equality.  Every operation that can panic in Rust returns an `Option`,
with `none` for the panic.
-/

set_option maxRecDepth 4000

namespace Gtree

/-- Embeds `Node<T>` from src/tree.rs: an element together with the ordered
list of child nodes.  The `father` back-pointer is represented implicitly by
the path structure. -/
inductive GNode (α : Type) : Type where
  | node (elem : α) (childs : List (GNode α)) : GNode α

namespace GNode

/-- The `elem` field of a node. -/
def elem : GNode α → α
  | node e _ => e

/-- The `childs` field of a node. -/
def childs : GNode α → List (GNode α)
  | node _ cs => cs

@[simp] theorem elem_node (e : α) (cs : List (GNode α)) : (node e cs).elem = e := rfl

@[simp] theorem childs_node (e : α) (cs : List (GNode α)) : (node e cs).childs = cs := rfl

/-- Dereference the pointer embedded as a path: follow the child indices from
`g`; `none` when the path leaves the tree (a dangling pointer, which cannot
occur in the states the Rust code constructs). -/
def get? : List Nat → GNode α → Option (GNode α)
  | [], g => some g
  | i :: p, g =>
    match g.childs[i]? with
    | some c => get? p c
    | none => none

@[simp] theorem get?_nil (g : GNode α) : get? [] g = some g := rfl

/-- Rebuild the tree with `f` applied to the node at path `p`; `none` when the
path is dangling.  This is the embedding device for the in-place mutation the
Rust code performs through the `current` pointer. -/
def modifyAt (f : GNode α → GNode α) : List Nat → GNode α → Option (GNode α)
  | [], g => some (f g)
  | i :: p, node e cs =>
    match cs[i]? with
    | some c =>
      match modifyAt f p c with
      | some c' => some (node e (cs.set i c'))
      | none => none
    | none => none

end GNode

/-- Embeds `Vec::insert(index, el)`: insert at position `index`, shifting later
entries right.  Callers guard `index ≤ length`, as `Vec::insert` panics
otherwise. -/
def insertList : Nat → α → List α → List α
  | 0, a, xs => a :: xs
  | _ + 1, a, [] => [a]
  | n + 1, a, x :: xs => x :: insertList n a xs

mutual
/-- Embeds `_iter_rec` from src/tree.rs: push the element of the node, then
recurse over the children left to right (pre-order). -/
def GNode.iterRec : GNode α → List α
  | GNode.node e cs => e :: iterRecList cs
/-- The child loop of `_iter_rec`. -/
def iterRecList : List (GNode α) → List α
  | [] => []
  | c :: cs => GNode.iterRec c ++ iterRecList cs
end

mutual
/-- Embeds `_into_vec_rec` from src/tree.rs: move the element of the node into
the container, then recurse over the children left to right. -/
def GNode.intoVecRec : GNode α → List α
  | GNode.node e cs => e :: intoVecRecList cs
/-- The child loop of `_into_vec_rec`. -/
def intoVecRecList : List (GNode α) → List α
  | [] => []
  | c :: cs => GNode.intoVecRec c ++ intoVecRecList cs
end

/-- Embeds `Tree<T>` from src/tree.rs: the owned node graph rooted at `root`
and the exploring pointer `current`, embedded as a path of child indices. -/
structure Tree (α : Type) : Type where
  root : Option (GNode α)
  current : Option (List Nat)

/-- Embeds `Cursor<'a, T>` from src/cursor.rs: a non-owning position (path)
into the borrowed tree. -/
structure Cursor (α : Type) : Type where
  current : List Nat

/-- Embeds `CursorMut<'a, T>` from src/cursor.rs. -/
structure CursorMut (α : Type) : Type where
  current : List Nat

/-- Embeds `UnsafeCursor<'a, T>` from src/cursor.rs. -/
structure UnsafeCursor (α : Type) : Type where
  current : List Nat

namespace Tree

/-- Embeds `Tree::from_element`: root and current point at a fresh leaf
(the fresh leaf is the root, so its pointer is the empty path). -/
def from_element (el : α) : Tree α :=
  { root := some (GNode.node el []), current := some [] }

/-- Embeds `impl Default for Tree`: both pointers null. -/
def defaultTree : Tree α := { root := none, current := none }

/-- Embeds `Tree::is_empty`: true iff root is null. -/
def is_empty (t : Tree α) : Bool := t.root.isNone

/-- Embeds `Tree::push`: append a fresh leaf holding `el` to the children of
the current node.  Panics (`none`) on an empty tree. -/
def push (t : Tree α) (el : α) : Option (Tree α) :=
  match t.root, t.current with
  | some g, some p =>
    match GNode.modifyAt (fun n => GNode.node n.elem (n.childs ++ [GNode.node el []])) p g with
    | some g' => some { t with root := some g' }
    | none => none
  | _, _ => none

/-- Embeds `Tree::push_iter`: literally `for el in iter { tree.push(el) }`. -/
def push_iter (t : Tree α) (l : List α) : Option (Tree α) :=
  l.foldlM Tree.push t

/-- Embeds `Tree::insert`: insert a fresh leaf holding `el` into the children
of the current node at `index`.  Panic (`none`) on an empty tree, and from
`Vec::insert` when `index` exceeds the number of children. -/
def insert (t : Tree α) (index : Nat) (el : α) : Option (Tree α) :=
  match t.root, t.current with
  | some g, some p =>
    match GNode.get? p g with
    | some n =>
      if index > n.childs.length then none
      else
        match GNode.modifyAt
            (fun m => GNode.node m.elem (insertList index (GNode.node el []) m.childs)) p g with
        | some g' => some { t with root := some g' }
        | none => none
    | none => none
  | _, _ => none

/-- Embeds `Tree::navigate_to`: move current to its child at `index`.  Panics
(`none`) on an empty tree or when `index` is at least the number of children. -/
def navigate_to (t : Tree α) (index : Nat) : Option (Tree α) :=
  match t.root, t.current with
  | some g, some p =>
    match GNode.get? p g with
    | some n =>
      if index ≥ n.childs.length then none
      else some { t with current := some (p ++ [index]) }
    | none => none
  | _, _ => none

/-- Embeds `Tree::ascend`: move current to its father.  Panics (`none`) on an
empty tree or when current has no father (the father pointer is null exactly
when the path is empty). -/
def ascend (t : Tree α) : Option (Tree α) :=
  match t.root, t.current with
  | some g, some p =>
    match GNode.get? p g with
    | some _ =>
      if p.isEmpty then none
      else some { t with current := some p.dropLast }
    | none => none
  | _, _ => none

/-- Embeds `Tree::has_father`: false (without a panic) on an empty tree,
otherwise whether the father pointer of the current node is non-null. -/
def has_father (t : Tree α) : Option Bool :=
  match t.root, t.current with
  | none, _ => some false
  | some g, some p => (GNode.get? p g).map fun _ => !p.isEmpty
  | some _, none => none

/-- Embeds `Tree::go_to_root`: set current to root.  Panics (`none`) on an
empty tree. -/
def go_to_root (t : Tree α) : Option (Tree α) :=
  match t.root with
  | some _ => some { t with current := some [] }
  | none => none

/-- Embeds `Tree::peek`: the element stored in the current node.  Panics
(`none`) on an empty tree. -/
def peek (t : Tree α) : Option α :=
  match t.root, t.current with
  | some g, some p => (GNode.get? p g).map GNode.elem
  | _, _ => none

/-- Embeds `Tree::peek_mut` (same observable value as `peek`; the returned
place is the element of the current node). -/
def peek_mut (t : Tree α) : Option α :=
  match t.root, t.current with
  | some g, some p => (GNode.get? p g).map GNode.elem
  | _, _ => none

/-- Embeds `Tree::peek_child`: the element of the child at `index` of the
current node.  Panics (`none`) on an empty tree or an out-of-range index. -/
def peek_child (t : Tree α) (index : Nat) : Option α :=
  match t.root, t.current with
  | some g, some p =>
    match GNode.get? p g with
    | some n =>
      if index ≥ n.childs.length then none
      else (n.childs[index]?).map GNode.elem
    | none => none
  | _, _ => none

/-- Embeds `Tree::peek_child_mut` (same observable value as `peek_child`). -/
def peek_child_mut (t : Tree α) (index : Nat) : Option α :=
  match t.root, t.current with
  | some g, some p =>
    match GNode.get? p g with
    | some n =>
      if index ≥ n.childs.length then none
      else (n.childs[index]?).map GNode.elem
    | none => none
  | _, _ => none

/-- Embeds `Tree::childs_len`: the number of children of the current node.
Panics (`none`) on an empty tree. -/
def childs_len (t : Tree α) : Option Nat :=
  match t.root, t.current with
  | some g, some p => (GNode.get? p g).map fun n => n.childs.length
  | _, _ => none

/-- Embeds `Tree::iter_childs`: the (collected) sequence the child iterator
yields, i.e. the elements of the children of the current node in order.
Panics (`none`) on an empty tree. -/
def iter_childs (t : Tree α) : Option (List α) :=
  match t.root, t.current with
  | some g, some p => (GNode.get? p g).map fun n => n.childs.map GNode.elem
  | _, _ => none

/-- Embeds `Tree::iter_childs_mut` (same sequence as `iter_childs`). -/
def iter_childs_mut (t : Tree α) : Option (List α) :=
  match t.root, t.current with
  | some g, some p => (GNode.get? p g).map fun n => n.childs.map GNode.elem
  | _, _ => none

/-- Embeds `Tree::join`: transplant the node graph of `other` into the
children of the current node at `index` (the father of the transplanted root
becomes current).  Panics (`none`) when either tree is empty, and from
`Vec::insert` when `index` exceeds the number of children. -/
def join (t : Tree α) (other : Tree α) (index : Nat) : Option (Tree α) :=
  match t.root, other.root with
  | some g, some og =>
    match t.current with
    | some p =>
      match GNode.get? p g with
      | some n =>
        if index > n.childs.length then none
        else
          match GNode.modifyAt
              (fun m => GNode.node m.elem (insertList index og m.childs)) p g with
          | some g' => some { t with root := some g' }
          | none => none
      | none => none
    | none => none
  | _, _ => none

/-- Embeds `Tree::split`: remove the child at `index` of the current node and
return it (with a null father pointer) as a new tree whose root and current
both point at the detached node.  Panics (`none`) on an empty tree or an
out-of-range index.  Returns the modified tree together with the split-off
tree. -/
def split (t : Tree α) (index : Nat) : Option (Tree α × Tree α) :=
  match t.root, t.current with
  | some g, some p =>
    match GNode.get? p g with
    | some n =>
      if index ≥ n.childs.length then none
      else
        match n.childs[index]? with
        | some c =>
          match GNode.modifyAt
              (fun m => GNode.node m.elem (m.childs.eraseIdx index)) p g with
          | some g' =>
            some ({ t with root := some g' }, { root := some c, current := some [] })
          | none => none
        | none => none
    | none => none
  | _, _ => none

/-- Embeds `Tree::cursor`: a read cursor at current.  Panics (`none`) on an
empty tree. -/
def cursor (t : Tree α) : Option (Cursor α) :=
  match t.root, t.current with
  | some _, some p => some { current := p }
  | _, _ => none

/-- Embeds `Tree::cursor_mut`.  Panics (`none`) on an empty tree. -/
def cursor_mut (t : Tree α) : Option (CursorMut α) :=
  match t.root, t.current with
  | some _, some p => some { current := p }
  | _, _ => none

/-- Embeds `Tree::unsafe_cursor`.  Panics (`none`) on an empty tree. -/
def unsafe_cursor (t : Tree α) : Option (UnsafeCursor α) :=
  match t.root, t.current with
  | some _, some p => some { current := p }
  | _, _ => none

/-- Embeds `Tree::cursor_root`: a read cursor at root.  Panics (`none`) on an
empty tree. -/
def cursor_root (t : Tree α) : Option (Cursor α) :=
  match t.root with
  | some _ => some { current := [] }
  | none => none

/-- Embeds `Tree::cursor_root_mut`.  Panics (`none`) on an empty tree. -/
def cursor_root_mut (t : Tree α) : Option (CursorMut α) :=
  match t.root with
  | some _ => some { current := [] }
  | none => none

/-- Embeds `Tree::unsafe_cursor_root`.  Panics (`none`) on an empty tree. -/
def unsafe_cursor_root (t : Tree α) : Option (UnsafeCursor α) :=
  match t.root with
  | some _ => some { current := [] }
  | none => none

/-- Embeds `Tree::into_vec`: collect the subtree rooted at current in
depth-first order and remove it.  At the root the whole tree is drained and
both pointers become null; below the root the code ascends, finds the old
current among the children of the father by pointer comparison (pointer
identity is path identity, so the match is at index `p.getLast?`), splits it
off and drains it.  Panics (`none`) on an empty tree. -/
def into_vec (t : Tree α) : Option (List α × Tree α) :=
  match t.root, t.current with
  | some g, some p =>
    if p.isEmpty then
      some (GNode.intoVecRec g, { root := none, current := none })
    else
      match GNode.get? p g, p.getLast? with
      | some old, some i =>
        match t.ascend with
        | some t₁ =>
          match t₁.split i with
          | some (t₂, _) => some (GNode.intoVecRec old, t₂)
          | none => none
        | none => none
      | _, _ => none
  | _, _ => none

/-- Embeds `Tree::iter` (collected): the depth-first pre-order sequence of the
subtree rooted at current, or the empty sequence (without a panic) on an empty
tree. -/
def iter (t : Tree α) : Option (List α) :=
  match t.root with
  | none => some []
  | some g =>
    match t.current with
    | some p => (GNode.get? p g).map GNode.iterRec
    | none => none

/-- Embeds `Tree::iter_mut` (collected; same sequence as `iter`). -/
def iter_mut (t : Tree α) : Option (List α) :=
  match t.root with
  | none => some []
  | some g =>
    match t.current with
    | some p => (GNode.get? p g).map GNode.iterRec
    | none => none

end Tree

mutual
/-- Embeds `_clone_rec` from src/tree.rs.  The source cursor and the cursor of
the rebuilt tree move in lockstep, so both sit at the same path `here`; the
pointer comparison `cursor.current == tree.current.unwrap()` is path equality
`here = target`.  Returns the rebuilt subtree together with the recorded
position of the clone of the target node (`res`), where a find in a later
child overwrites an earlier find, as in the source. -/
def cloneRec : GNode α → List Nat → List Nat → GNode α × Option (List Nat)
  | GNode.node e cs, here, target =>
    let r0 : Option (List Nat) := if here = target then some here else none
    let rl := cloneRecList cs here 0 target
    (GNode.node e rl.1, if rl.2.isSome then rl.2 else r0)
/-- The child loop of `_clone_rec`: push a clone of child `i`, descend both
cursors, recurse, ascend both cursors. -/
def cloneRecList : List (GNode α) → List Nat → Nat → List Nat → List (GNode α) × Option (List Nat)
  | [], _, _, _ => ([], none)
  | c :: rest, here, i, target =>
    let hd := cloneRec c (here ++ [i]) target
    let tl := cloneRecList rest here (i + 1) target
    (hd.1 :: tl.1, if tl.2.isSome then tl.2 else hd.2)
end

namespace Tree

/-- Embeds `impl Clone for Tree`: panic (`none`) on an empty tree, otherwise
rebuild the node graph from the root with `_clone_rec` and set the current of
the clone to the recorded position of the node corresponding to current. -/
def clone (t : Tree α) : Option (Tree α) :=
  match t.root, t.current with
  | some g, some p =>
    let r := cloneRec g [] p
    some { root := some r.1, current := r.2 }
  | _, _ => none

end Tree

/-- Embeds `LazyTreeIterator<'a, T>` from src/tree.rs: a cursor position plus
the `idx_list` stack of child indices.  The linked list is kept with its back
(the end `push_back`/`pop_back`/`back` operate on) as the head. -/
structure LazyTreeIterator (α : Type) : Type where
  cursor : List Nat
  idxList : List Nat

/-- Embeds `LazyTreeIteratorMut<'a, T>` from src/tree.rs. -/
structure LazyTreeIteratorMut (α : Type) : Type where
  cursor : List Nat
  idxList : List Nat

namespace Tree

/-- Embeds `Tree::lazyiter`: a lazy iterator starting at current with
`idx_list = [0]`.  Panics (`none`) on an empty tree. -/
def lazyiter (t : Tree α) : Option (LazyTreeIterator α) :=
  match t.root, t.current with
  | some _, some p => some { cursor := p, idxList := [0] }
  | _, _ => none

/-- Embeds `Tree::lazyiter_mut`.  Panics (`none`) on an empty tree. -/
def lazyiter_mut (t : Tree α) : Option (LazyTreeIteratorMut α) :=
  match t.root, t.current with
  | some _, some p => some { cursor := p, idxList := [0] }
  | _, _ => none

end Tree

/-- One result of pulling `LazyTreeIterator::next`.  `panic` is a Rust panic
(in particular the unguarded `self.cursor.ascend()` in the leaf branch);
`fuelout` marks exhaustion of the fuel that bounds the self-recursion of
`next` and never arises with enough fuel. -/
inductive LazyRes (α : Type) : Type where
  | panic : LazyRes α
  | fuelout : LazyRes α
  | yield (a : α) (s : LazyTreeIterator α) : LazyRes α
  | done : LazyRes α

/-- Embeds `<LazyTreeIterator as Iterator>::next` over the fixed node graph
`g`.  The branches follow the source: empty `idx_list` means the iteration is
over; at a childless node the element is yielded, the cursor ascends (a panic
when current has no father, i.e. the path is empty) and the depth is popped;
otherwise the back index selects whether to yield-and-descend (index 0),
descend silently and pull again (index within range), or pop, ascend when a
father exists, and pull again.  The `fuel` bounds the self-recursive pulls. -/
def lazyNext (g : GNode α) : Nat → LazyTreeIterator α → LazyRes α
  | _, { cursor := _, idxList := [] } => LazyRes.done
  | fuel, { cursor := c, idxList := k :: rest } =>
    match GNode.get? c g with
    | none => LazyRes.panic
    | some n =>
      if n.childs.length = 0 then
        if c.isEmpty then LazyRes.panic
        else LazyRes.yield n.elem { cursor := c.dropLast, idxList := rest }
      else if k < n.childs.length then
        if k = 0 then
          LazyRes.yield n.elem { cursor := c ++ [0], idxList := 0 :: (k + 1) :: rest }
        else
          match fuel with
          | 0 => LazyRes.fuelout
          | fuel + 1 => lazyNext g fuel { cursor := c ++ [k], idxList := 0 :: (k + 1) :: rest }
      else
        match fuel with
        | 0 => LazyRes.fuelout
        | fuel + 1 =>
          lazyNext g fuel
            { cursor := if c.isEmpty then c else c.dropLast, idxList := rest }

/-- Collect the lazy iterator: pull `lazyNext` until it reports `done`,
`none` when a pull panics or the fuel runs out. -/
def lazyCollect (g : GNode α) : Nat → LazyTreeIterator α → Option (List α)
  | 0, _ => none
  | fuel + 1, s =>
    match lazyNext g fuel s with
    | LazyRes.done => some []
    | LazyRes.yield a s' => (lazyCollect g fuel s').map fun l => a :: l
    | _ => none

/-- The data-model invariant of `Tree`: the current pointer is null exactly
when the root pointer is null, and otherwise current points at a node
reachable from root (the path dereferences). -/
def Tree.wf (t : Tree α) : Bool :=
  match t.root, t.current with
  | none, none => true
  | some g, some p => (GNode.get? p g).isSome
  | _, _ => false

/-- The tree built by the doc tests of `Tree::lazyiter` and `Tree::into_vec`
in src/tree.rs, used as a sanity anchor for the embedding. -/
def egTree : Option (Tree Nat) := do
  let t := Tree.from_element 0
  let t ← t.push_iter [1, 2, 3]
  let t ← t.navigate_to 1
  let t ← t.push_iter [9, 8]
  let t ← t.ascend
  let t ← t.navigate_to 0
  let t ← t.push_iter [9, 10]
  let t ← t.navigate_to 0
  let t ← t.push 15
  t.go_to_root

example : (egTree.bind Tree.iter) = some [0, 1, 9, 15, 10, 2, 9, 8, 3] := by rfl

example :
    (egTree.bind fun t =>
      (t.lazyiter).bind fun it =>
        t.root.bind fun g => lazyCollect g 100 it) =
      some [0, 1, 9, 15, 10, 2, 9, 8, 3] := by rfl

example :
    (egTree.bind fun t => (t.navigate_to 1).bind fun t =>
      (t.lazyiter).bind fun it =>
        t.root.bind fun g => lazyCollect g 100 it) = some [2, 9, 8] := by rfl

example :
    (egTree.bind fun t => (t.navigate_to 0).bind fun t => t.into_vec) =
      some ([1, 9, 15, 10],
        { root := some (GNode.node 0 [GNode.node 2 [GNode.node 9 [], GNode.node 8 []],
            GNode.node 3 []]), current := some [] }) := by rfl

example : (egTree.bind fun t => some (t.wf)) = some true := by rfl

/-- Setting an index of a list to the value it already holds is the identity. -/
theorem set_getElem?_same : ∀ (xs : List α) (i : Nat) (c : α),
    xs[i]? = some c → xs.set i c = xs := by
  intro xs
  induction xs with
  | nil => intro i c h; simp at h
  | cons x xs ih =>
    intro i c h
    cases i with
    | zero =>
      simp only [List.getElem?_cons_zero, Option.some.injEq] at h
      simp [h]
    | succ n =>
      simp only [List.getElem?_cons_succ] at h
      simp [List.set_cons_succ, ih n c h]

/-- Length after `Vec::insert` at an in-range index. -/
theorem insertList_length : ∀ (i : Nat) (a : α) (xs : List α), i ≤ xs.length →
    (insertList i a xs).length = xs.length + 1 := by
  intro i
  induction i with
  | zero => intro a xs _; simp [insertList]
  | succ n ih =>
    intro a xs h
    cases xs with
    | nil => simp at h
    | cons x xs => simp [insertList, ih a xs (Nat.le_of_succ_le_succ h)]

/-- After `Vec::insert i a`, index `i` holds `a`. -/
theorem insertList_getElem?_self : ∀ (i : Nat) (a : α) (xs : List α), i ≤ xs.length →
    (insertList i a xs)[i]? = some a := by
  intro i
  induction i with
  | zero => intro a xs _; simp [insertList]
  | succ n ih =>
    intro a xs h
    cases xs with
    | nil => simp at h
    | cons x xs => simp [insertList, ih a xs (Nat.le_of_succ_le_succ h)]

/-- After `Vec::insert i a` at an in-range index, indices below `i` are
unchanged. -/
theorem insertList_getElem?_lt : ∀ (i j : Nat) (a : α) (xs : List α), j < i →
    i ≤ xs.length → (insertList i a xs)[j]? = xs[j]? := by
  intro i
  induction i with
  | zero => intro j a xs h _; omega
  | succ n ih =>
    intro j a xs h hle
    cases xs with
    | nil => simp at hle
    | cons x xs =>
      cases j with
      | zero => simp [insertList]
      | succ m =>
        simp [insertList,
          ih m a xs (Nat.lt_of_succ_lt_succ h) (Nat.le_of_succ_le_succ hle)]

/-- After `Vec::insert i a`, the entry previously at `j ≥ i` sits at `j + 1`. -/
theorem insertList_getElem?_ge : ∀ (i j : Nat) (a : α) (xs : List α), i ≤ j →
    (insertList i a xs)[j + 1]? = xs[j]? := by
  intro i
  induction i with
  | zero =>
    intro j a xs _
    simp [insertList]
  | succ n ih =>
    intro j a xs h
    cases xs with
    | nil => simp [insertList]
    | cons x xs =>
      cases j with
      | zero => omega
      | succ m => simp [insertList, ih m a xs (Nat.le_of_succ_le_succ h)]

/-- `Vec::insert` at `i` of the entry removed from `i` restores the list. -/
theorem insertList_eraseIdx : ∀ (xs : List α) (i : Nat) (c : α),
    xs[i]? = some c → insertList i c (xs.eraseIdx i) = xs := by
  intro xs
  induction xs with
  | nil => intro i c h; simp at h
  | cons x xs ih =>
    intro i c h
    cases i with
    | zero =>
      simp only [List.getElem?_cons_zero, Option.some.injEq] at h
      simp [List.eraseIdx, insertList, h]
    | succ n =>
      simp only [List.getElem?_cons_succ] at h
      simp [List.eraseIdx, insertList, ih n c h]

namespace GNode

/-- Dereferencing a composite path is dereferencing in two stages. -/
theorem get?_append (p q : List Nat) (g : GNode α) :
    get? (p ++ q) g = (get? p g).bind (get? q) := by
  induction p generalizing g with
  | nil => simp [get?]
  | cons i p ih =>
    simp only [List.cons_append, get?]
    cases g.childs[i]? with
    | some c => simp [ih]
    | none => simp

/-- A valid pointer can be written through: `modifyAt` succeeds and afterwards
the node at the path is the image under `f`. -/
theorem modifyAt_of_get? (f : GNode α → GNode α) :
    ∀ (p : List Nat) (g n : GNode α), get? p g = some n →
      ∃ g', modifyAt f p g = some g' ∧ get? p g' = some (f n) := by
  intro p
  induction p with
  | nil =>
    intro g n h
    rw [get?_nil, Option.some.injEq] at h
    subst h
    exact ⟨f g, rfl, rfl⟩
  | cons i p ih =>
    intro g n h
    cases g with
    | node e cs =>
      simp only [get?, childs_node] at h
      cases hc : cs[i]? with
      | none => simp only [hc] at h; cases h
      | some c =>
        simp only [hc] at h
        obtain ⟨c', hm, hg⟩ := ih c n h
        have hi : i < cs.length := by
          by_contra hlt
          rw [List.getElem?_eq_none (by omega)] at hc
          cases hc
        refine ⟨node e (cs.set i c'), ?_, ?_⟩
        · simp only [modifyAt, hc, hm]
        · simp only [get?, childs_node, List.getElem?_set_self (by simpa using hi), hg]

/-- A successful write happened through a valid pointer, and afterwards the
node at the path is the image under `f` of the node previously there. -/
theorem get?_of_modifyAt (f : GNode α → GNode α) :
    ∀ (p : List Nat) (g g' : GNode α), modifyAt f p g = some g' →
      ∃ n, get? p g = some n ∧ get? p g' = some (f n) := by
  intro p
  induction p with
  | nil =>
    intro g g' h
    rw [modifyAt, Option.some.injEq] at h
    exact ⟨g, rfl, by rw [← h, get?_nil]⟩
  | cons i p ih =>
    intro g g' h
    cases g with
    | node e cs =>
      simp only [modifyAt] at h
      cases hc : cs[i]? with
      | none => simp only [hc] at h; cases h
      | some c =>
        simp only [hc] at h
        cases hm : modifyAt f p c with
        | none => simp only [hm] at h; cases h
        | some c' =>
          simp only [hm, Option.some.injEq] at h
          obtain ⟨n, hg, hg'⟩ := ih c c' hm
          have hi : i < cs.length := by
            by_contra hlt
            rw [List.getElem?_eq_none (by omega)] at hc
            cases hc
          refine ⟨n, ?_, ?_⟩
          · simp only [get?, childs_node, hc, hg]
          · simp only [← h, get?, childs_node,
              List.getElem?_set_self (by simpa using hi), hg']

end GNode

/-- Two paths diverge when neither is a prefix of the other, i.e. they part
ways at some index.  Subtrees at divergent paths are disjoint regions of the
node graph. -/
def pathsDiverge : List Nat → List Nat → Bool
  | [], _ => false
  | _ :: _, [] => false
  | i :: p, j :: q => if i = j then pathsDiverge p q else true

namespace GNode

/-- Frame rule: a write through a pointer leaves the subtree at any divergent
path untouched. -/
theorem get?_modifyAt_diverge (f : GNode α → GNode α) :
    ∀ (p q : List Nat) (g g' : GNode α), modifyAt f p g = some g' →
      pathsDiverge p q = true → get? q g' = get? q g := by
  intro p
  induction p with
  | nil => intro q g g' _ hd; simp [pathsDiverge] at hd
  | cons i p ih =>
    intro q g g' hm hd
    cases q with
    | nil => simp [pathsDiverge] at hd
    | cons j q =>
      cases g with
      | node e cs =>
        simp only [modifyAt] at hm
        cases hc : cs[i]? with
        | none => simp only [hc] at hm; cases hm
        | some c =>
          simp only [hc] at hm
          cases hmc : modifyAt f p c with
          | none => simp only [hmc] at hm; cases hm
          | some c' =>
            simp only [hmc, Option.some.injEq] at hm
            subst hm
            by_cases hij : i = j
            · subst hij
              simp only [pathsDiverge, if_pos rfl] at hd
              have hi : i < cs.length := by
                by_contra hlt
                rw [List.getElem?_eq_none (by omega)] at hc
                cases hc
              simp only [get?, childs_node,
                List.getElem?_set_self (by simpa using hi), hc, ih q c c' hmc hd]
            · simp only [get?, childs_node, List.getElem?_set_ne (fun h => hij h)]

/-- Frame rule: a write through a pointer at `q ++ r` (with `r` nonempty)
leaves the element and the child count of every node on the strictly shorter
path `q` unchanged. -/
theorem get?_modifyAt_ancestor (f : GNode α → GNode α) :
    ∀ (q r : List Nat) (g g' : GNode α), modifyAt f (q ++ r) g = some g' → r ≠ [] →
      ∃ m m', get? q g = some m ∧ get? q g' = some m' ∧
        m'.elem = m.elem ∧ m'.childs.length = m.childs.length := by
  intro q
  induction q with
  | nil =>
    intro r g g' hm hr
    cases r with
    | nil => exact absurd rfl hr
    | cons i r =>
      cases g with
      | node e cs =>
        simp only [List.nil_append, modifyAt] at hm
        cases hc : cs[i]? with
        | none => simp only [hc] at hm; cases hm
        | some c =>
          simp only [hc] at hm
          cases hmc : modifyAt f r c with
          | none => simp only [hmc] at hm; cases hm
          | some c' =>
            simp only [hmc, Option.some.injEq] at hm
            subst hm
            exact ⟨node e cs, node e (cs.set i c'), rfl, rfl, rfl, by simp⟩
  | cons j q ih =>
    intro r g g' hm hr
    cases g with
    | node e cs =>
      simp only [List.cons_append, modifyAt, List.append_eq] at hm
      cases hc : cs[j]? with
      | none => simp only [hc] at hm; cases hm
      | some c =>
        simp only [hc] at hm
        cases hmc : modifyAt f (q ++ r) c with
        | none => rw [hmc] at hm; cases hm
        | some c' =>
          rw [hmc, Option.some.injEq] at hm
          subst hm
          obtain ⟨m, m', h1, h2, h3, h4⟩ := ih r c c' hmc hr
          have hj : j < cs.length := by
            by_contra hlt
            rw [List.getElem?_eq_none (by omega)] at hc
            cases hc
          refine ⟨m, m', ?_, ?_, h3, h4⟩
          · simp only [get?, childs_node, hc, h1]
          · simp only [get?, childs_node,
              List.getElem?_set_self (by simpa using hj), h2]

/-- Reading below a written pointer: after a write through `p`, the subtree at
`p ++ r` is the subtree at `r` of the rewritten node. -/
theorem get?_modifyAt_append (f : GNode α → GNode α) (p r : List Nat)
    (g g' n : GNode α) (hm : modifyAt f p g = some g') (hg : get? p g = some n) :
    get? (p ++ r) g' = get? r (f n) := by
  obtain ⟨n', hg', hn'⟩ := get?_of_modifyAt f p g g' hm
  rw [hg] at hg'
  cases hg'
  rw [get?_append, hn', Option.some_bind]

/-- Undoing a `split`: re-inserting the removed child at its old index through
the same pointer restores the original node graph. -/
theorem modifyAt_restore (i : Nat) :
    ∀ (p : List Nat) (g n c g₁ : GNode α), get? p g = some n → n.childs[i]? = some c →
      modifyAt (fun m => node m.elem (m.childs.eraseIdx i)) p g = some g₁ →
      modifyAt (fun m => node m.elem (insertList i c m.childs)) p g₁ = some g := by
  intro p
  induction p with
  | nil =>
    intro g n c g₁ hg hc hm
    rw [get?_nil, Option.some.injEq] at hg
    subst hg
    rw [modifyAt, Option.some.injEq] at hm
    subst hm
    cases g with
    | node e cs =>
      simp only [modifyAt, childs_node, elem_node, Option.some.injEq]
      simp only [childs_node] at hc
      rw [insertList_eraseIdx cs i c hc]
  | cons j p ih =>
    intro g n c g₁ hg hc hm
    cases g with
    | node e cs =>
      simp only [get?, childs_node] at hg
      simp only [modifyAt] at hm
      cases hcj : cs[j]? with
      | none => simp only [hcj] at hm; cases hm
      | some cj =>
        simp only [hcj] at hg hm
        cases hmc : modifyAt (fun m => node m.elem (m.childs.eraseIdx i)) p cj with
        | none => simp only [hmc] at hm; cases hm
        | some cj' =>
          simp only [hmc, Option.some.injEq] at hm
          subst hm
          have hj : j < cs.length := by
            by_contra hlt
            rw [List.getElem?_eq_none (by omega)] at hcj
            cases hcj
          have := ih cj n c cj' hg hc hmc
          simp only [modifyAt, List.getElem?_set_self (by simpa using hj), this,
            Option.some.injEq, List.set_set]
          rw [set_getElem?_same cs j cj hcj]

/-- Structural induction for the nested inductive `GNode`: to prove a
property of every node it suffices to prove it for a node given it for all
its children. -/
theorem strongInd {α : Type} {P : GNode α → Prop}
    (h : ∀ (e : α) (cs : List (GNode α)), (∀ c, c ∈ cs → P c) → P (node e cs)) :
    ∀ n, P n := fun n =>
  GNode.rec (motive_1 := P) (motive_2 := fun cs => ∀ c, c ∈ cs → P c)
    (fun e cs ih => h e cs ih)
    (fun c hc => absurd hc (List.not_mem_nil c))
    (fun hd tl ihhd ihtl c hc => by
      rcases List.mem_cons.mp hc with h1 | h2
      · exact h1 ▸ ihhd
      · exact ihtl c h2)
    n

end GNode

/-- The child loops of `_iter_rec` and `_into_vec_rec` produce the same
sequence when their bodies do. -/
theorem intoVecRecList_eq_iterRecList (cs : List (GNode α))
    (ih : ∀ c, c ∈ cs → GNode.intoVecRec c = GNode.iterRec c) :
    intoVecRecList cs = iterRecList cs := by
  induction cs with
  | nil => rfl
  | cons c rest ihl =>
    rw [intoVecRecList, iterRecList, ih c (List.mem_cons_self c rest),
      ihl fun d hd => ih d (List.mem_cons_of_mem c hd)]

/-- `_into_vec_rec` moves exactly the sequence of elements that `_iter_rec`
references: both are the depth-first pre-order sequence. -/
theorem intoVecRec_eq_iterRec : ∀ n : GNode α, GNode.intoVecRec n = GNode.iterRec n := by
  refine GNode.strongInd ?_
  intro e cs ih
  rw [GNode.intoVecRec, GNode.iterRec, intoVecRecList_eq_iterRecList cs ih]

/-- A list never equals itself extended by a further nonempty path. -/
theorem ne_append_cons (l : List Nat) (x : Nat) (r : List Nat) : l ≠ l ++ x :: r := by
  intro h
  have := congrArg List.length h
  simp at this

/-- The child loop of `_clone_rec` rebuilds the children unchanged. -/
theorem cloneRecList_fst (cs : List (GNode α)) (here : List Nat) (target : List Nat)
    (ih : ∀ c, c ∈ cs → ∀ h' t', (cloneRec c h' t').1 = c) :
    ∀ i, (cloneRecList cs here i target).1 = cs := by
  induction cs with
  | nil => intro i; rfl
  | cons c rest ihl =>
    intro i
    simp only [cloneRecList]
    rw [ih c (List.mem_cons_self c rest), ihl (fun d hd => ih d (List.mem_cons_of_mem c hd))]

/-- `_clone_rec` rebuilds the node graph unchanged (element for element,
child for child): cloning is the identity on the stored values. -/
theorem cloneRec_fst : ∀ (n : GNode α) (here target : List Nat),
    (cloneRec n here target).1 = n := by
  refine GNode.strongInd ?_
  intro e cs ih here target
  simp only [cloneRec]
  rw [cloneRecList_fst cs here target (fun c hc => ih c hc) 0]

/-- When the target pointer is not below any child, the child loop of
`_clone_rec` records no position. -/
theorem cloneRecList_snd_none (cs : List (GNode α)) (here target : List Nat)
    (ihb : ∀ c, c ∈ cs → ∀ h' t', (∀ q, t' ≠ h' ++ q) → (cloneRec c h' t').2 = none) :
    ∀ i, (∀ j q, target ≠ here ++ (i + j) :: q) → (cloneRecList cs here i target).2 = none := by
  induction cs with
  | nil => intro i _; rfl
  | cons c rest ihl =>
    intro i hdiv
    simp only [cloneRecList]
    have hhd : (cloneRec c (here ++ [i]) target).2 = none := by
      apply ihb c (List.mem_cons_self c rest)
      intro q hq
      refine hdiv 0 q ?_
      simpa [List.append_assoc] using hq
    have htl : (cloneRecList rest here (i + 1) target).2 = none := by
      apply ihl (fun d hd => ihb d (List.mem_cons_of_mem c hd)) (i + 1)
      intro j q hq
      refine hdiv (j + 1) q ?_
      rw [hq]
      congr 2
      omega
    rw [hhd, htl]
    rfl

/-- When the target pointer is not at or below this node, `_clone_rec`
records no position. -/
theorem cloneRec_snd_none : ∀ (n : GNode α) (here target : List Nat),
    (∀ q, target ≠ here ++ q) → (cloneRec n here target).2 = none := by
  refine GNode.strongInd ?_
  intro e cs ih here target hdiv
  simp only [cloneRec]
  have h0 : (if here = target then some here else none) = none := by
    rw [if_neg]
    intro h
    exact hdiv [] (by simp [h.symm])
  have hl : (cloneRecList cs here 0 target).2 = none :=
    cloneRecList_snd_none cs here target (fun c hc => ih c hc) 0
      (fun j q => hdiv ((0 + j) :: q))
  simp [hl, h0]

/-- When the target pointer sits below the child at index `j`, the child loop
of `_clone_rec` records exactly the target path (the finds in the other
children are `none`, so the last-find-wins combination keeps this one). -/
theorem cloneRecList_snd_found (cs : List (GNode α)) (here : List Nat)
    (iha : ∀ c, c ∈ cs → ∀ h' q', (GNode.get? q' c).isSome →
      (cloneRec c h' (h' ++ q')).2 = some (h' ++ q')) :
    ∀ (i j : Nat) (q : List Nat) (c : GNode α), cs[j]? = some c → (GNode.get? q c).isSome →
      (cloneRecList cs here i (here ++ (i + j) :: q)).2 = some (here ++ (i + j) :: q) := by
  induction cs with
  | nil => intro i j q c hc _; simp at hc
  | cons c0 rest ihl =>
    intro i j q c hc hq
    cases j with
    | zero =>
      rw [List.getElem?_cons_zero, Option.some.injEq] at hc
      subst hc
      simp only [Nat.add_zero] at *
      have hhd : (cloneRec c0 (here ++ [i]) (here ++ i :: q)).2 = some (here ++ i :: q) := by
        have h := iha c0 (List.mem_cons_self c0 rest) (here ++ [i]) q hq
        simpa [List.append_assoc] using h
      have htl : (cloneRecList rest here (i + 1) (here ++ i :: q)).2 = none := by
        apply cloneRecList_snd_none rest here _
          (fun d _ h' t' hdiv => cloneRec_snd_none d h' t' hdiv) (i + 1)
        intro j' q' hq'
        have h2 := List.append_cancel_left hq'
        rw [List.cons.injEq] at h2
        omega
      simp only [cloneRecList, hhd, htl, Option.isSome_none, Bool.false_eq_true,
        if_false]
    | succ k =>
      rw [List.getElem?_cons_succ] at hc
      have hhd : (cloneRec c0 (here ++ [i]) (here ++ (i + (k + 1)) :: q)).2 = none := by
        apply cloneRec_snd_none
        intro q' hq'
        rw [List.append_assoc] at hq'
        have h2 := List.append_cancel_left hq'
        rw [List.singleton_append, List.cons.injEq] at h2
        omega
      have htl := ihl (fun d hd => iha d (List.mem_cons_of_mem c0 hd)) (i + 1) k q c hc hq
      have harith : i + 1 + k = i + (k + 1) := by omega
      rw [harith] at htl
      simp only [cloneRecList, hhd, htl, Option.isSome_some, if_true]

/-- When the target pointer sits at path `q` inside this subtree, `_clone_rec`
records exactly the corresponding position `here ++ q` in the rebuilt tree. -/
theorem cloneRec_snd_found : ∀ (n : GNode α) (here q : List Nat),
    (GNode.get? q n).isSome → (cloneRec n here (here ++ q)).2 = some (here ++ q) := by
  refine GNode.strongInd ?_
  intro e cs ih here q hq
  cases q with
  | nil =>
    simp only [List.append_nil]
    have hl : (cloneRecList cs here 0 here).2 = none := by
      apply cloneRecList_snd_none cs here here
        (fun d _ h' t' hdiv => cloneRec_snd_none d h' t' hdiv) 0
      intro j q'
      exact ne_append_cons here (0 + j) q'
    simp [cloneRec, hl]
  | cons j q' =>
    rw [GNode.get?, GNode.childs_node] at hq
    cases hc : cs[j]? with
    | none => rw [hc] at hq; simp at hq
    | some c =>
      rw [hc] at hq
      have h := cloneRecList_snd_found cs here (fun d hd h' q'' => ih d hd h' q'') 0 j q' c hc hq
      rw [Nat.zero_add] at h
      simp [cloneRec, h]

/-- Dereferencing a one-step path reads the child at that index. -/
theorem GNode.get?_singleton (j : Nat) (m : GNode α) :
    GNode.get? [j] m = m.childs[j]? := by
  rw [GNode.get?]
  cases m.childs[j]? with
  | some c => rfl
  | none => rfl

/-- Dereferencing a path ending in one extra step: read the father, then the
child at the final index. -/
theorem GNode.get?_concat (p : List Nat) (i : Nat) (g : GNode α) :
    GNode.get? (p ++ [i]) g = (GNode.get? p g).bind fun m => m.childs[i]? := by
  rw [GNode.get?_append]
  cases GNode.get? p g with
  | some m => simp [GNode.get?_singleton]
  | none => rfl

section Claims

/-- C6: On an empty tree (root is null), push, insert, navigate_to, ascend,
go_to_root, peek, peek_mut, peek_child, peek_child_mut, childs_len,
iter_childs, split, join, into_vec, clone, the six cursor constructors and
lazyiter (and lazyiter_mut) all panic; by exception has_father returns false
without failing, is_empty returns true, and iter and iter_mut return the
empty sequence without failing. -/
theorem C6_empty_tree_behaviour (α : Type) (t o : Tree α) (x : α) (i : Nat)
    (h : t.root = none) :
    t.push x = none ∧ t.insert i x = none ∧ t.navigate_to i = none ∧
    t.ascend = none ∧ t.go_to_root = none ∧ t.peek = none ∧ t.peek_mut = none ∧
    t.peek_child i = none ∧ t.peek_child_mut i = none ∧ t.childs_len = none ∧
    t.iter_childs = none ∧ t.split i = none ∧ t.join o i = none ∧
    t.into_vec = none ∧ t.clone = none ∧ t.cursor = none ∧ t.cursor_mut = none ∧
    t.unsafe_cursor = none ∧ t.cursor_root = none ∧ t.cursor_root_mut = none ∧
    t.unsafe_cursor_root = none ∧ t.lazyiter = none ∧ t.lazyiter_mut = none ∧
    t.has_father = some false ∧ t.is_empty = true ∧ t.iter = some [] ∧
    t.iter_mut = some [] := by
  obtain ⟨root, cur⟩ := t
  simp only at h
  subst h
  cases cur <;>
    simp [Tree.push, Tree.insert, Tree.navigate_to, Tree.ascend, Tree.go_to_root,
      Tree.peek, Tree.peek_mut, Tree.peek_child, Tree.peek_child_mut,
      Tree.childs_len, Tree.iter_childs, Tree.split, Tree.join, Tree.into_vec,
      Tree.clone, Tree.cursor, Tree.cursor_mut, Tree.unsafe_cursor,
      Tree.cursor_root, Tree.cursor_root_mut, Tree.unsafe_cursor_root,
      Tree.lazyiter, Tree.lazyiter_mut, Tree.has_father, Tree.is_empty,
      Tree.iter, Tree.iter_mut]

/-- Witness for C6 at the concrete empty tree produced by the default
constructor. -/
theorem C6_witness :
    (Tree.defaultTree : Tree Nat).root = none ∧
    ((Tree.defaultTree : Tree Nat).push 0 = none ∧
      (Tree.defaultTree : Tree Nat).insert 0 0 = none ∧
      (Tree.defaultTree : Tree Nat).navigate_to 0 = none ∧
      (Tree.defaultTree : Tree Nat).ascend = none ∧
      (Tree.defaultTree : Tree Nat).go_to_root = none ∧
      (Tree.defaultTree : Tree Nat).peek = none ∧
      (Tree.defaultTree : Tree Nat).peek_mut = none ∧
      (Tree.defaultTree : Tree Nat).peek_child 0 = none ∧
      (Tree.defaultTree : Tree Nat).peek_child_mut 0 = none ∧
      (Tree.defaultTree : Tree Nat).childs_len = none ∧
      (Tree.defaultTree : Tree Nat).iter_childs = none ∧
      (Tree.defaultTree : Tree Nat).split 0 = none ∧
      (Tree.defaultTree : Tree Nat).join (Tree.from_element 0) 0 = none ∧
      (Tree.defaultTree : Tree Nat).into_vec = none ∧
      (Tree.defaultTree : Tree Nat).clone = none ∧
      (Tree.defaultTree : Tree Nat).cursor = none ∧
      (Tree.defaultTree : Tree Nat).cursor_mut = none ∧
      (Tree.defaultTree : Tree Nat).unsafe_cursor = none ∧
      (Tree.defaultTree : Tree Nat).cursor_root = none ∧
      (Tree.defaultTree : Tree Nat).cursor_root_mut = none ∧
      (Tree.defaultTree : Tree Nat).unsafe_cursor_root = none ∧
      (Tree.defaultTree : Tree Nat).lazyiter = none ∧
      (Tree.defaultTree : Tree Nat).lazyiter_mut = none ∧
      (Tree.defaultTree : Tree Nat).has_father = some false ∧
      (Tree.defaultTree : Tree Nat).is_empty = true ∧
      (Tree.defaultTree : Tree Nat).iter = some [] ∧
      (Tree.defaultTree : Tree Nat).iter_mut = some []) :=
  ⟨rfl, C6_empty_tree_behaviour Nat Tree.defaultTree (Tree.from_element 0) 0 0 rfl⟩

/-- C8: On a non-empty tree whose current node has more than `i` children,
navigate_to(i) followed by ascend() restores current to exactly its previous
node, with the same element observable via peek (in fact the whole tree state
is restored). -/
theorem C8_navigate_ascend_roundtrip (α : Type) (t : Tree α) (g n : GNode α)
    (p : List Nat) (i : Nat) (hr : t.root = some g) (hc : t.current = some p)
    (hn : GNode.get? p g = some n) (hi : i < n.childs.length) :
    ∃ t₁ t₂, t.navigate_to i = some t₁ ∧ t₁.ascend = some t₂ ∧
      t₂.current = t.current ∧ t₂.peek = t.peek ∧ t₂ = t := by
  obtain ⟨root, cur⟩ := t
  simp only at hr hc
  subst hr
  subst hc
  have hci : n.childs[i]? = some n.childs[i] := List.getElem?_eq_getElem hi
  have hgi : GNode.get? (p ++ [i]) g = some n.childs[i] := by
    rw [GNode.get?_concat, hn, Option.some_bind, hci]
  refine ⟨Tree.mk (some g) (some (p ++ [i])), Tree.mk (some g) (some p),
    ?_, ?_, rfl, rfl, rfl⟩
  · simp only [Tree.navigate_to, hn]
    rw [if_neg (by omega)]
  · simp only [Tree.ascend, hgi]
    rw [if_neg (by simp), List.dropLast_concat]

/-- Witness for C8 on a two-node tree. -/
theorem C8_witness :
    ∃ t₁ t₂,
      (Tree.mk (some (GNode.node (7 : Nat) [GNode.node 8 []])) (some [])).navigate_to 0 =
          some t₁ ∧
      t₁.ascend = some t₂ ∧
      t₂.current = some [] ∧ t₂.peek = some 7 ∧
      t₂ = Tree.mk (some (GNode.node (7 : Nat) [GNode.node 8 []])) (some []) := by
  obtain ⟨t₁, t₂, h1, h2, h3, _, h5⟩ :=
    C8_navigate_ascend_roundtrip Nat
      (Tree.mk (some (GNode.node (7 : Nat) [GNode.node 8 []])) (some []))
      (GNode.node 7 [GNode.node 8 []]) (GNode.node 7 [GNode.node 8 []]) [] 0
      rfl rfl rfl (by simp)
  exact ⟨t₁, t₂, h1, h2, by rw [h5], by rw [h5]; rfl, h5⟩

/-- C1: the claimed equivalence of lazyiter and iter fails on a tree of a
single node.  There the eager iterator yields the one element, while the
first pull of the lazy iterator reaches the childless-node branch and runs
the unguarded `self.cursor.ascend()` with the cursor at the root, which
panics, whatever fuel the pull is given. -/
theorem C1_lazyiter_single_node_panics :
    (Tree.from_element (0 : Nat)).iter = some [0] ∧
    (Tree.from_element (0 : Nat)).lazyiter =
      some { cursor := [], idxList := [0] } ∧
    (∀ fuel : Nat,
      lazyNext (GNode.node (0 : Nat) []) fuel { cursor := [], idxList := [0] } =
        LazyRes.panic) ∧
    (∀ fuel : Nat,
      lazyCollect (GNode.node (0 : Nat) []) (fuel + 1) { cursor := [], idxList := [0] } =
        none) := by
  have hnext : ∀ fuel : Nat,
      lazyNext (GNode.node (0 : Nat) []) fuel { cursor := [], idxList := [0] } =
        LazyRes.panic := fun fuel => by cases fuel <;> rfl
  refine ⟨rfl, rfl, hnext, fun fuel => ?_⟩
  rw [lazyCollect, hnext fuel]

/-- C7: On a non-empty tree whose current node has `n` children,
insert(i, x) with i ≤ n succeeds, puts a fresh leaf holding x at child
position i (so peek_child i yields x), keeps earlier children in place,
shifts every child previously at position j ≥ i to position j + 1, and grows
the child count by one; insert with i > n panics. -/
theorem C7_insert_shifts (α : Type) (t : Tree α) (g n : GNode α) (p : List Nat)
    (x : α) (i : Nat) (hr : t.root = some g) (hc : t.current = some p)
    (hn : GNode.get? p g = some n) :
    (i ≤ n.childs.length →
      ∃ t' g', t.insert i x = some t' ∧ t'.root = some g' ∧ t'.current = t.current ∧
        t'.peek_child i = some x ∧
        GNode.get? (p ++ [i]) g' = some (GNode.node x []) ∧
        t'.childs_len = some (n.childs.length + 1) ∧
        (∀ j, j < i → t'.peek_child j = t.peek_child j) ∧
        (∀ j, i ≤ j → t'.peek_child (j + 1) = t.peek_child j)) ∧
    (n.childs.length < i → t.insert i x = none) := by
  obtain ⟨root, cur⟩ := t
  simp only at hr hc
  subst hr; subst hc
  constructor
  · intro hle
    obtain ⟨g', hm, hg'⟩ := GNode.modifyAt_of_get?
      (fun m => GNode.node m.elem (insertList i (GNode.node x []) m.childs)) p g n hn
    refine ⟨Tree.mk (some g') (some p), g', ?_, rfl, rfl, ?_, ?_, ?_, ?_, ?_⟩
    · simp only [Tree.insert, hn]
      rw [if_neg (by omega), hm]
    · simp only [Tree.peek_child, hg', GNode.childs_node]
      rw [if_neg (by rw [insertList_length i _ _ hle]; omega),
        insertList_getElem?_self i _ _ hle]
      rfl
    · rw [GNode.get?_concat, hg', Option.some_bind, GNode.childs_node,
        insertList_getElem?_self i _ _ hle]
    · simp only [Tree.childs_len, hg', Option.map_some', GNode.childs_node]
      rw [insertList_length i _ _ hle]
    · intro j hj
      simp only [Tree.peek_child, hg', hn, GNode.childs_node]
      rw [insertList_length i _ _ hle, if_neg (by omega), if_neg (by omega),
        insertList_getElem?_lt i j _ _ hj hle]
    · intro j hj
      simp only [Tree.peek_child, hg', hn, GNode.childs_node]
      rw [insertList_length i _ _ hle]
      by_cases hjl : j < n.childs.length
      · rw [if_neg (by omega), if_neg (by omega), insertList_getElem?_ge i j _ _ hj]
      · rw [if_pos (by omega), if_pos (by omega)]
  · intro hgt
    simp only [Tree.insert, hn]
    rw [if_pos (by omega)]

/-- Witness for C7: the doc test of `Tree::insert` (children 1, 3; insert 2
at index 1). -/
theorem C7_witness :
    ∃ t' g',
      (Tree.mk (some (GNode.node (0 : Nat) [GNode.node 1 [], GNode.node 3 []]))
        (some [])).insert 1 2 = some t' ∧
      t'.root = some g' ∧ t'.peek_child 1 = some 2 ∧ t'.childs_len = some 3 := by
  obtain ⟨t', g', h1, h2, _, h4, _, h6, _⟩ :=
    (C7_insert_shifts Nat
      (Tree.mk (some (GNode.node (0 : Nat) [GNode.node 1 [], GNode.node 3 []])) (some []))
      (GNode.node 0 [GNode.node 1 [], GNode.node 3 []])
      (GNode.node 0 [GNode.node 1 [], GNode.node 3 []]) [] 2 1 rfl rfl rfl).1
      (by simp)
  exact ⟨t', g', h1, h2, h4, h6⟩

/-- Reading the element through a pointer is unchanged by a write through the
same pointer whose function keeps the element of the node. -/
theorem peek_modifyAt (g g' : GNode α) (p : List Nat) (f : GNode α → GNode α)
    (hf : ∀ m, (f m).elem = m.elem) (hm : GNode.modifyAt f p g = some g') :
    (GNode.get? p g').map GNode.elem = (GNode.get? p g).map GNode.elem := by
  obtain ⟨n, h1, h2⟩ := GNode.get?_of_modifyAt f p g g' hm
  rw [h1, h2, Option.map_some', Option.map_some', hf]

/-- C9: push, push_iter, insert, split and join leave the current pointer of
the tree unchanged, and peek returns the same element afterwards. -/
theorem C9_mutators_keep_current (α : Type) (t : Tree α) :
    (∀ x t', t.push x = some t' → t'.current = t.current ∧ t'.peek = t.peek) ∧
    (∀ l t', t.push_iter l = some t' → t'.current = t.current ∧ t'.peek = t.peek) ∧
    (∀ i x t', t.insert i x = some t' → t'.current = t.current ∧ t'.peek = t.peek) ∧
    (∀ i t' s, t.split i = some (t', s) → t'.current = t.current ∧ t'.peek = t.peek) ∧
    (∀ o i t', t.join o i = some t' → t'.current = t.current ∧ t'.peek = t.peek) := by
  have hpush : ∀ (u : Tree α) (x : α) (u' : Tree α),
      u.push x = some u' → u'.current = u.current ∧ u'.peek = u.peek := by
    intro u x u' h
    obtain ⟨root, cur⟩ := u
    cases root with
    | none => simp [Tree.push] at h
    | some g =>
      cases cur with
      | none => simp [Tree.push] at h
      | some p =>
        simp only [Tree.push] at h
        cases hm : GNode.modifyAt
            (fun m => GNode.node m.elem (m.childs ++ [GNode.node x []])) p g with
        | none => simp only [hm] at h; cases h
        | some g' =>
          simp only [hm, Option.some.injEq] at h
          subst h
          refine ⟨rfl, ?_⟩
          simp only [Tree.peek]
          exact peek_modifyAt g g' p
            (fun m => GNode.node m.elem (m.childs ++ [GNode.node x []]))
            (fun m => rfl) hm
  refine ⟨fun x t' h => hpush t x t' h, ?_, ?_, ?_, ?_⟩
  · intro l
    induction l generalizing t with
    | nil =>
      intro t' h
      rw [Tree.push_iter, List.foldlM_nil, Option.pure_def, Option.some.injEq] at h
      subst h
      exact ⟨rfl, rfl⟩
    | cons x l ih =>
      intro t' h
      rw [Tree.push_iter, List.foldlM_cons] at h
      cases h1 : t.push x with
      | none => rw [h1] at h; cases h
      | some t₁ =>
        rw [h1] at h
        simp only [Option.bind_eq_bind, Option.some_bind] at h
        obtain ⟨e1, e2⟩ := hpush t x t₁ h1
        obtain ⟨e3, e4⟩ := ih t₁ t' h
        exact ⟨e3.trans e1, e4.trans e2⟩
  · intro i x t' h
    obtain ⟨root, cur⟩ := t
    cases root with
    | none => simp [Tree.insert] at h
    | some g =>
      cases cur with
      | none => simp [Tree.insert] at h
      | some p =>
        simp only [Tree.insert] at h
        cases hgp : GNode.get? p g with
        | none => simp only [hgp] at h; cases h
        | some n =>
          simp only [hgp] at h
          by_cases hi : i > n.childs.length
          · rw [if_pos hi] at h; cases h
          · rw [if_neg hi] at h
            cases hm : GNode.modifyAt
                (fun m => GNode.node m.elem (insertList i (GNode.node x []) m.childs)) p g with
            | none => simp only [hm] at h; cases h
            | some g' =>
              simp only [hm, Option.some.injEq] at h
              subst h
              refine ⟨rfl, ?_⟩
              simp only [Tree.peek]
              exact peek_modifyAt g g' p
                (fun m => GNode.node m.elem (insertList i (GNode.node x []) m.childs))
                (fun m => rfl) hm
  · intro i t' s h
    obtain ⟨root, cur⟩ := t
    cases root with
    | none => simp [Tree.split] at h
    | some g =>
      cases cur with
      | none => simp [Tree.split] at h
      | some p =>
        simp only [Tree.split] at h
        cases hgp : GNode.get? p g with
        | none => simp only [hgp] at h; cases h
        | some n =>
          simp only [hgp] at h
          by_cases hi : i ≥ n.childs.length
          · rw [if_pos hi] at h; cases h
          · rw [if_neg hi] at h
            cases hci : n.childs[i]? with
            | none => simp only [hci] at h; cases h
            | some c =>
              simp only [hci] at h
              cases hm : GNode.modifyAt
                  (fun m => GNode.node m.elem (m.childs.eraseIdx i)) p g with
              | none => simp only [hm] at h; cases h
              | some g' =>
                simp only [hm, Option.some.injEq, Prod.mk.injEq] at h
                obtain ⟨h1, _⟩ := h
                subst h1
                refine ⟨rfl, ?_⟩
                simp only [Tree.peek]
                exact peek_modifyAt g g' p
                  (fun m => GNode.node m.elem (m.childs.eraseIdx i))
                  (fun m => rfl) hm
  · intro o i t' h
    obtain ⟨root, cur⟩ := t
    cases root with
    | none => simp [Tree.join] at h
    | some g =>
      cases ho : o.root with
      | none => rw [Tree.join, ho] at h; cases h
      | some og =>
        cases cur with
        | none => rw [Tree.join, ho] at h; cases h
        | some p =>
          rw [Tree.join, ho] at h
          simp only at h
          cases hgp : GNode.get? p g with
          | none => simp only [hgp] at h; cases h
          | some n =>
            simp only [hgp] at h
            by_cases hi : i > n.childs.length
            · rw [if_pos hi] at h; cases h
            · rw [if_neg hi] at h
              cases hm : GNode.modifyAt
                  (fun m => GNode.node m.elem (insertList i og m.childs)) p g with
              | none => simp only [hm] at h; cases h
              | some g' =>
                simp only [hm, Option.some.injEq] at h
                subst h
                refine ⟨rfl, ?_⟩
                simp only [Tree.peek]
                exact peek_modifyAt g g' p
                  (fun m => GNode.node m.elem (insertList i og m.childs))
                  (fun m => rfl) hm

/-- C10: On a non-empty tree whose current node has n > i children, split(i)
removes exactly the i-th child subtree and nothing else: the child count
drops to n - 1, children before i stay in place, children after i shift left
by one (as whole subtrees), subtrees at paths divergent from current are
untouched, every node on the path to current keeps its element and child
count, current itself stays put with the same element, and the returned tree
has root = current = the detached node with has_father false. -/
theorem C10_split_frame (α : Type) (t : Tree α) (g n : GNode α) (p : List Nat) (i : Nat)
    (hr : t.root = some g) (hc : t.current = some p) (hn : GNode.get? p g = some n)
    (hi : i < n.childs.length) :
    ∃ t' s c g', n.childs[i]? = some c ∧ t.split i = some (t', s) ∧
      s.root = some c ∧ s.current = some [] ∧ s.has_father = some false ∧
      t'.current = t.current ∧ t'.root = some g' ∧
      t'.childs_len = some (n.childs.length - 1) ∧ t'.peek = t.peek ∧
      (∀ j, j < i → GNode.get? (p ++ [j]) g' = GNode.get? (p ++ [j]) g) ∧
      (∀ j, i ≤ j → GNode.get? (p ++ [j]) g' = GNode.get? (p ++ [j + 1]) g) ∧
      (∀ q, pathsDiverge p q = true → GNode.get? q g' = GNode.get? q g) ∧
      (∀ q r, p = q ++ r → r ≠ [] →
        ∃ m m', GNode.get? q g = some m ∧ GNode.get? q g' = some m' ∧
          m'.elem = m.elem ∧ m'.childs.length = m.childs.length) := by
  obtain ⟨root, cur⟩ := t
  simp only at hr hc
  subst hr; subst hc
  have hci : n.childs[i]? = some n.childs[i] := List.getElem?_eq_getElem hi
  obtain ⟨g', hm, hg'⟩ := GNode.modifyAt_of_get?
    (fun m => GNode.node m.elem (m.childs.eraseIdx i)) p g n hn
  refine ⟨Tree.mk (some g') (some p), Tree.mk (some n.childs[i]) (some []),
    n.childs[i], g', hci, ?_, rfl, rfl, ?_, rfl, rfl, ?_, ?_, ?_, ?_, ?_, ?_⟩
  · simp only [Tree.split, hn]
    rw [if_neg (by omega)]
    simp only [hci, hm]
  · simp [Tree.has_father]
  · simp only [Tree.childs_len, hg', Option.map_some', GNode.childs_node]
    rw [List.length_eraseIdx_of_lt hi]
  · simp only [Tree.peek]
    exact peek_modifyAt g g' p
      (fun m => GNode.node m.elem (m.childs.eraseIdx i)) (fun m => rfl) hm
  · intro j hj
    rw [GNode.get?_concat, hg', Option.some_bind, GNode.childs_node,
      GNode.get?_concat, hn, Option.some_bind,
      List.getElem?_eraseIdx_of_lt _ _ _ hj]
  · intro j hj
    rw [GNode.get?_concat, hg', Option.some_bind, GNode.childs_node,
      GNode.get?_concat, hn, Option.some_bind,
      List.getElem?_eraseIdx_of_ge _ _ _ hj]
  · intro q hq
    exact GNode.get?_modifyAt_diverge _ p q g g' hm hq
  · intro q r hpq hr2
    subst hpq
    exact GNode.get?_modifyAt_ancestor _ q r g g' hm hr2

/-- Witness for C10 on the doc-test tree of `Tree::split`. -/
theorem C10_witness :
    ∃ t' s c g',
      (GNode.node (0 : Nat) [GNode.node 1 [], GNode.node 2 [GNode.node 3 [], GNode.node 4 []]]).childs[1]? = some c ∧
      (Tree.mk (some (GNode.node (0 : Nat)
          [GNode.node 1 [], GNode.node 2 [GNode.node 3 [], GNode.node 4 []]]))
        (some [])).split 1 = some (t', s) ∧
      s.root = some c ∧ s.current = some [] ∧ s.has_father = some false ∧
      t'.current = some [] ∧ t'.root = some g' ∧ t'.childs_len = some 1 := by
  obtain ⟨t', s, c, g', h1, h2, h3, h4, h5, h6, h7, h8, _⟩ :=
    C10_split_frame Nat
      (Tree.mk (some (GNode.node (0 : Nat)
          [GNode.node 1 [], GNode.node 2 [GNode.node 3 [], GNode.node 4 []]]))
        (some []))
      (GNode.node 0 [GNode.node 1 [], GNode.node 2 [GNode.node 3 [], GNode.node 4 []]])
      (GNode.node 0 [GNode.node 1 [], GNode.node 2 [GNode.node 3 [], GNode.node 4 []]])
      [] 1 rfl rfl rfl (by simp)
  exact ⟨t', s, c, g', h1, h2, h3, h4, h5, h6, h7, h8⟩

/-- C2: into_vec at the root returns the pre-order sequence of the whole tree
(the same list iter yields) and leaves the tree empty; below the root it
returns the pre-order sequence of the subtree at current (again the list iter
yields there), removes exactly that subtree (siblings keep their relative
order, divergent subtrees and the elements and child counts of all ancestors
are unchanged), and moves current to the former father. -/
theorem C2_into_vec (α : Type) (t : Tree α) (g : GNode α) (p : List Nat)
    (hr : t.root = some g) (hc : t.current = some p) (hwf : (GNode.get? p g).isSome) :
    (p = [] →
      t.into_vec = some (GNode.iterRec g, Tree.mk none none) ∧
      t.iter = some (GNode.iterRec g) ∧
      (Tree.mk (none : Option (GNode α)) none).is_empty = true) ∧
    (p ≠ [] →
      ∃ old parent p' i g', p = p' ++ [i] ∧ GNode.get? p g = some old ∧
        GNode.get? p' g = some parent ∧ parent.childs[i]? = some old ∧
        t.into_vec = some (GNode.iterRec old, Tree.mk (some g') (some p')) ∧
        t.iter = some (GNode.iterRec old) ∧
        (∀ j, j < i → GNode.get? (p' ++ [j]) g' = GNode.get? (p' ++ [j]) g) ∧
        (∀ j, i ≤ j → GNode.get? (p' ++ [j]) g' = GNode.get? (p' ++ [j + 1]) g) ∧
        (∀ q, pathsDiverge p' q = true → GNode.get? q g' = GNode.get? q g) ∧
        (∀ q r, p' = q ++ r → r ≠ [] →
          ∃ m m', GNode.get? q g = some m ∧ GNode.get? q g' = some m' ∧
            m'.elem = m.elem ∧ m'.childs.length = m.childs.length) ∧
        (GNode.get? p' g').map GNode.elem = (GNode.get? p' g).map GNode.elem) := by
  obtain ⟨root, cur⟩ := t
  simp only at hr hc
  subst hr; subst hc
  constructor
  · intro hp
    subst hp
    refine ⟨?_, ?_, rfl⟩
    · simp only [Tree.into_vec, List.isEmpty_nil, if_true, intoVecRec_eq_iterRec]
    · simp only [Tree.iter, GNode.get?_nil, Option.map_some']
  · intro hp
    obtain ⟨old, hold⟩ := Option.isSome_iff_exists.mp hwf
    have hsplitp : p.dropLast ++ [p.getLast hp] = p := List.dropLast_concat_getLast hp
    have hlast : p.getLast? = some (p.getLast hp) := List.getLast?_eq_getLast p hp
    have hempty : ¬(p.isEmpty = true) := by
      cases p with
      | nil => exact absurd rfl hp
      | cons a l => simp
    have holdsplit : GNode.get? (p.dropLast ++ [p.getLast hp]) g = some old := by
      rw [hsplitp]; exact hold
    rw [GNode.get?_concat] at holdsplit
    cases hparent : GNode.get? p.dropLast g with
    | none => rw [hparent, Option.none_bind] at holdsplit; cases holdsplit
    | some parent =>
      rw [hparent, Option.some_bind] at holdsplit
      have hilt : p.getLast hp < parent.childs.length := by
        by_contra hge
        rw [List.getElem?_eq_none (by omega)] at holdsplit
        cases holdsplit
      obtain ⟨g', hm, hg'⟩ := GNode.modifyAt_of_get?
        (fun m => GNode.node m.elem (m.childs.eraseIdx (p.getLast hp))) p.dropLast g
        parent hparent
      have hasc : Tree.ascend (Tree.mk (some g) (some p)) =
          some (Tree.mk (some g) (some p.dropLast)) := by
        simp only [Tree.ascend, hold]
        rw [if_neg hempty]
      have hsplit2 : Tree.split (Tree.mk (some g) (some p.dropLast)) (p.getLast hp) =
          some (Tree.mk (some g') (some p.dropLast), Tree.mk (some old) (some [])) := by
        simp only [Tree.split, hparent]
        rw [if_neg (by omega)]
        simp only [holdsplit, hm]
      refine ⟨old, parent, p.dropLast, p.getLast hp, g', hsplitp.symm, hold,
        hparent, holdsplit, ?_, ?_, ?_, ?_, ?_, ?_, ?_⟩
      · simp only [Tree.into_vec, hold, hlast]
        rw [if_neg hempty]
        simp only [hasc, hsplit2, intoVecRec_eq_iterRec]
      · simp only [Tree.iter, hold, Option.map_some']
      · intro j hj
        rw [GNode.get?_concat, hg', Option.some_bind, GNode.childs_node,
          GNode.get?_concat, hparent, Option.some_bind,
          List.getElem?_eraseIdx_of_lt _ _ _ hj]
      · intro j hj
        rw [GNode.get?_concat, hg', Option.some_bind, GNode.childs_node,
          GNode.get?_concat, hparent, Option.some_bind,
          List.getElem?_eraseIdx_of_ge _ _ _ hj]
      · intro q hq
        exact GNode.get?_modifyAt_diverge _ p.dropLast q g g' hm hq
      · intro q r hpq hr2
        rw [hpq] at hm
        exact GNode.get?_modifyAt_ancestor _ q r g g' hm hr2
      · exact peek_modifyAt g g' p.dropLast
          (fun m => GNode.node m.elem (m.childs.eraseIdx (p.getLast hp)))
          (fun m => rfl) hm

/-- Witness for C2 below the root, on the doc-test tree of `Tree::into_vec`. -/
theorem C2_witness :
    ∃ old parent p' i g',
      ([0] : List Nat) = p' ++ [i] ∧
      GNode.get? [0] (GNode.node (0 : Nat)
        [GNode.node 1 [GNode.node 9 [GNode.node 15 []], GNode.node 10 []],
          GNode.node 2 [], GNode.node 3 []]) = some old ∧
      GNode.get? p' (GNode.node (0 : Nat)
        [GNode.node 1 [GNode.node 9 [GNode.node 15 []], GNode.node 10 []],
          GNode.node 2 [], GNode.node 3 []]) = some parent ∧
      parent.childs[i]? = some old ∧
      (Tree.mk (some (GNode.node (0 : Nat)
          [GNode.node 1 [GNode.node 9 [GNode.node 15 []], GNode.node 10 []],
            GNode.node 2 [], GNode.node 3 []]))
        (some [0])).into_vec =
          some (GNode.iterRec old, Tree.mk (some g') (some p')) ∧
      GNode.iterRec old = [1, 9, 15, 10] := by
  obtain ⟨old, parent, p', i, g', h1, h2, h3, h4, h5, -, -, -, -, -, -⟩ :=
    (C2_into_vec Nat
      (Tree.mk (some (GNode.node (0 : Nat)
          [GNode.node 1 [GNode.node 9 [GNode.node 15 []], GNode.node 10 []],
            GNode.node 2 [], GNode.node 3 []]))
        (some [0]))
      (GNode.node (0 : Nat)
        [GNode.node 1 [GNode.node 9 [GNode.node 15 []], GNode.node 10 []],
          GNode.node 2 [], GNode.node 3 []])
      [0] rfl rfl (by decide)).2 (by simp)
  refine ⟨old, parent, p', i, g', h1, h2, h3, h4, h5, ?_⟩
  have : old = GNode.node 1 [GNode.node 9 [GNode.node 15 []], GNode.node 10 []] := by
    rw [GNode.get?] at h2
    simp only [GNode.childs_node, List.getElem?_cons_zero, GNode.get?_nil,
      Option.some.injEq] at h2
    exact h2.symm
  subst this
  rfl

/-- C5: splitting off child i of current and joining the returned tree back
at the same index restores the original tree state exactly, so the iter
sequence from the same current is unchanged and the transplanted child is
back at position i. -/
theorem C5_split_join_roundtrip (α : Type) (t : Tree α) (g n : GNode α) (p : List Nat)
    (i : Nat) (hr : t.root = some g) (hc : t.current = some p)
    (hn : GNode.get? p g = some n) (hi : i < n.childs.length) :
    ∃ t₁ s c t₂, t.split i = some (t₁, s) ∧ n.childs[i]? = some c ∧
      s.root = some c ∧ t₁.join s i = some t₂ ∧ t₂ = t ∧
      t₂.iter = t.iter ∧ GNode.get? (p ++ [i]) g = some c := by
  obtain ⟨root, cur⟩ := t
  simp only at hr hc
  subst hr; subst hc
  have hci : n.childs[i]? = some n.childs[i] := List.getElem?_eq_getElem hi
  obtain ⟨g₁, hm, hg₁⟩ := GNode.modifyAt_of_get?
    (fun m => GNode.node m.elem (m.childs.eraseIdx i)) p g n hn
  have hrestore := GNode.modifyAt_restore i p g n n.childs[i] g₁ hn hci hm
  refine ⟨Tree.mk (some g₁) (some p), Tree.mk (some n.childs[i]) (some []),
    n.childs[i], Tree.mk (some g) (some p), ?_, hci, rfl, ?_, rfl, rfl, ?_⟩
  · simp only [Tree.split, hn]
    rw [if_neg (by omega)]
    simp only [hci, hm]
  · simp only [Tree.join, hg₁]
    rw [if_neg (by
      simp only [GNode.childs_node]
      rw [List.length_eraseIdx_of_lt hi]
      omega)]
    simp only [hrestore]
  · rw [GNode.get?_concat, hn, Option.some_bind, hci]

/-- Witness for C5 on a concrete three-child tree, splitting and re-joining
the middle child. -/
theorem C5_witness :
    ∃ t₁ s c t₂,
      (Tree.mk (some (GNode.node (0 : Nat)
          [GNode.node 1 [], GNode.node 2 [GNode.node 5 []], GNode.node 3 []]))
        (some [])).split 1 = some (t₁, s) ∧
      (GNode.node (0 : Nat)
        [GNode.node 1 [], GNode.node 2 [GNode.node 5 []], GNode.node 3 []]).childs[1]? = some c ∧
      s.root = some c ∧ t₁.join s 1 = some t₂ ∧
      t₂ = Tree.mk (some (GNode.node (0 : Nat)
          [GNode.node 1 [], GNode.node 2 [GNode.node 5 []], GNode.node 3 []]))
        (some []) := by
  obtain ⟨t₁, s, c, t₂, h1, h2, h3, h4, h5, -, -⟩ :=
    C5_split_join_roundtrip Nat
      (Tree.mk (some (GNode.node (0 : Nat)
          [GNode.node 1 [], GNode.node 2 [GNode.node 5 []], GNode.node 3 []]))
        (some []))
      (GNode.node 0 [GNode.node 1 [], GNode.node 2 [GNode.node 5 []], GNode.node 3 []])
      (GNode.node 0 [GNode.node 1 [], GNode.node 2 [GNode.node 5 []], GNode.node 3 []])
      [] 1 rfl rfl rfl (by simp)
  exact ⟨t₁, s, c, t₂, h1, h2, h3, h4, h5⟩

/-- Witness for C9 at a concrete push. -/
theorem C9_witness :
    ∃ t', (Tree.from_element (5 : Nat)).push 6 = some t' ∧
      t'.current = some [] ∧ t'.peek = some 5 := by
  obtain ⟨h1, h2⟩ :=
    (C9_mutators_keep_current Nat (Tree.from_element 5)).1 6
      (Tree.mk (some (GNode.node 5 [GNode.node 6 []])) (some [])) rfl
  exact ⟨Tree.mk (some (GNode.node 5 [GNode.node 6 []])) (some []), rfl, h1, h2⟩

/-- C4: cloning a non-empty tree rebuilds an equal node graph (so flattening
the original and the clone with iter yields identical sequences), and the
current of the clone is the structurally corresponding node: the same path of
child indices from the root.  The clone consists of freshly built nodes, so
in this value-level embedding its independence from the original is inherent. -/
theorem C4_clone_deep_copy (α : Type) (t : Tree α) (g : GNode α) (p : List Nat)
    (hr : t.root = some g) (hc : t.current = some p) (hwf : (GNode.get? p g).isSome) :
    ∃ t', t.clone = some t' ∧ t'.root = t.root ∧ t'.current = t.current ∧
      t'.iter = t.iter ∧ t'.peek = t.peek := by
  obtain ⟨root, cur⟩ := t
  simp only at hr hc
  subst hr; subst hc
  have h1 : (cloneRec g [] p).1 = g := cloneRec_fst g [] p
  have h2 : (cloneRec g [] p).2 = some p := by
    have h := cloneRec_snd_found g [] p hwf
    rw [List.nil_append] at h
    exact h
  refine ⟨Tree.mk (some g) (some p), ?_, rfl, rfl, rfl, rfl⟩
  simp only [Tree.clone, h1, h2]

/-- Witness for C4 on the doc-test tree of `impl Clone for Tree`, with
current below the root. -/
theorem C4_witness :
    ∃ t',
      (Tree.mk (some (GNode.node (0 : Nat) [GNode.node 1 [GNode.node 4 [], GNode.node 5 []],
          GNode.node 2 [], GNode.node 3 []]))
        (some [0])).clone = some t' ∧
      t'.root = some (GNode.node (0 : Nat) [GNode.node 1 [GNode.node 4 [], GNode.node 5 []],
        GNode.node 2 [], GNode.node 3 []]) ∧
      t'.current = some [0] ∧
      t'.iter = some [1, 4, 5] ∧ t'.peek = some 1 := by
  obtain ⟨t', h1, h2, h3, h4, h5⟩ :=
    C4_clone_deep_copy Nat
      (Tree.mk (some (GNode.node (0 : Nat) [GNode.node 1 [GNode.node 4 [], GNode.node 5 []],
          GNode.node 2 [], GNode.node 3 []]))
        (some [0]))
      (GNode.node (0 : Nat) [GNode.node 1 [GNode.node 4 [], GNode.node 5 []],
        GNode.node 2 [], GNode.node 3 []])
      [0] rfl rfl (by decide)
  exact ⟨t', h1, h2, h3, by rw [h4]; rfl, by rw [h5]; rfl⟩

/-- The invariant evaluated on a tree with both pointers set. -/
theorem wf_mk_some (g : GNode α) (p : List Nat) :
    (Tree.mk (some g) (some p)).wf = (GNode.get? p g).isSome := rfl

/-- push returns a tree satisfying the invariant whenever it succeeds. -/
theorem push_wf (u : Tree α) (y : α) (u' : Tree α) (h : u.push y = some u') :
    u'.wf = true := by
  obtain ⟨root, cur⟩ := u
  cases root with
  | none => simp [Tree.push] at h
  | some g =>
    cases cur with
    | none => simp [Tree.push] at h
    | some p =>
      simp only [Tree.push] at h
      cases hm : GNode.modifyAt
          (fun m => GNode.node m.elem (m.childs ++ [GNode.node y []])) p g with
      | none => simp only [hm] at h; cases h
      | some g' =>
        simp only [hm, Option.some.injEq] at h
        subst h
        obtain ⟨n, _, h2⟩ := GNode.get?_of_modifyAt _ p g g' hm
        rw [wf_mk_some, h2]
        rfl

/-- push_iter preserves the invariant whenever it succeeds. -/
theorem push_iter_wf (l : List α) : ∀ (u u' : Tree α), u.wf = true →
    u.push_iter l = some u' → u'.wf = true := by
  induction l with
  | nil =>
    intro u u' hu h
    rw [Tree.push_iter, List.foldlM_nil, Option.pure_def, Option.some.injEq] at h
    subst h
    exact hu
  | cons y l ih =>
    intro u u' hu h
    rw [Tree.push_iter, List.foldlM_cons] at h
    cases h1 : u.push y with
    | none => rw [h1] at h; cases h
    | some u₁ =>
      rw [h1] at h
      simp only [Option.bind_eq_bind, Option.some_bind] at h
      exact ih u₁ u' (push_wf u y u₁ h1) h

/-- insert returns a tree satisfying the invariant whenever it succeeds. -/
theorem insert_wf (u : Tree α) (i : Nat) (y : α) (u' : Tree α)
    (h : u.insert i y = some u') : u'.wf = true := by
  obtain ⟨root, cur⟩ := u
  cases root with
  | none => simp [Tree.insert] at h
  | some g =>
    cases cur with
    | none => simp [Tree.insert] at h
    | some p =>
      simp only [Tree.insert] at h
      cases hgp : GNode.get? p g with
      | none => simp only [hgp] at h; cases h
      | some n =>
        simp only [hgp] at h
        by_cases hi : i > n.childs.length
        · rw [if_pos hi] at h; cases h
        · rw [if_neg hi] at h
          cases hm : GNode.modifyAt
              (fun m => GNode.node m.elem (insertList i (GNode.node y []) m.childs)) p g with
          | none => simp only [hm] at h; cases h
          | some g' =>
            simp only [hm, Option.some.injEq] at h
            subst h
            obtain ⟨n', _, h2⟩ := GNode.get?_of_modifyAt _ p g g' hm
            rw [wf_mk_some, h2]
            rfl

/-- navigate_to returns a tree satisfying the invariant whenever it
succeeds. -/
theorem navigate_to_wf (u : Tree α) (i : Nat) (u' : Tree α)
    (h : u.navigate_to i = some u') : u'.wf = true := by
  obtain ⟨root, cur⟩ := u
  cases root with
  | none => simp [Tree.navigate_to] at h
  | some g =>
    cases cur with
    | none => simp [Tree.navigate_to] at h
    | some p =>
      simp only [Tree.navigate_to] at h
      cases hgp : GNode.get? p g with
      | none => simp only [hgp] at h; cases h
      | some n =>
        simp only [hgp] at h
        by_cases hi : i ≥ n.childs.length
        · rw [if_pos hi] at h; cases h
        · rw [if_neg hi] at h
          rw [Option.some.injEq] at h
          subst h
          rw [wf_mk_some, GNode.get?_concat, hgp, Option.some_bind,
            List.getElem?_eq_getElem (by omega)]
          rfl

/-- ascend returns a tree satisfying the invariant whenever it succeeds. -/
theorem ascend_wf (u : Tree α) (u' : Tree α) (h : u.ascend = some u') :
    u'.wf = true := by
  obtain ⟨root, cur⟩ := u
  cases root with
  | none => simp [Tree.ascend] at h
  | some g =>
    cases cur with
    | none => simp [Tree.ascend] at h
    | some p =>
      simp only [Tree.ascend] at h
      cases hgp : GNode.get? p g with
      | none => simp only [hgp] at h; cases h
      | some n =>
        simp only [hgp] at h
        by_cases hp : p.isEmpty = true
        · rw [if_pos hp] at h; cases h
        · rw [if_neg hp] at h
          rw [Option.some.injEq] at h
          subst h
          rw [wf_mk_some]
          have hp2 : p ≠ [] := by
            cases p with
            | nil => simp at hp
            | cons a l => simp
          have h3 : GNode.get? (p.dropLast ++ [p.getLast hp2]) g = some n := by
            rw [List.dropLast_concat_getLast hp2]; exact hgp
          rw [GNode.get?_concat] at h3
          cases hq : GNode.get? p.dropLast g with
          | none => rw [hq, Option.none_bind] at h3; cases h3
          | some m => rfl

/-- go_to_root returns a tree satisfying the invariant whenever it
succeeds. -/
theorem go_to_root_wf (u : Tree α) (u' : Tree α) (h : u.go_to_root = some u') :
    u'.wf = true := by
  obtain ⟨root, cur⟩ := u
  cases root with
  | none => simp [Tree.go_to_root] at h
  | some g =>
    simp only [Tree.go_to_root, Option.some.injEq] at h
    subst h
    rfl

/-- Both trees returned by split satisfy the invariant whenever it
succeeds. -/
theorem split_wf (u : Tree α) (i : Nat) (u' s : Tree α)
    (h : u.split i = some (u', s)) : u'.wf = true ∧ s.wf = true := by
  obtain ⟨root, cur⟩ := u
  cases root with
  | none => simp [Tree.split] at h
  | some g =>
    cases cur with
    | none => simp [Tree.split] at h
    | some p =>
      simp only [Tree.split] at h
      cases hgp : GNode.get? p g with
      | none => simp only [hgp] at h; cases h
      | some n =>
        simp only [hgp] at h
        by_cases hi : i ≥ n.childs.length
        · rw [if_pos hi] at h; cases h
        · rw [if_neg hi] at h
          cases hci : n.childs[i]? with
          | none => simp only [hci] at h; cases h
          | some c =>
            simp only [hci] at h
            cases hm : GNode.modifyAt
                (fun m => GNode.node m.elem (m.childs.eraseIdx i)) p g with
            | none => simp only [hm] at h; cases h
            | some g' =>
              simp only [hm, Option.some.injEq, Prod.mk.injEq] at h
              obtain ⟨h1, h2⟩ := h
              subst h1; subst h2
              obtain ⟨n', _, h3⟩ := GNode.get?_of_modifyAt _ p g g' hm
              constructor
              · rw [wf_mk_some, h3]; rfl
              · rfl

/-- join returns a tree satisfying the invariant whenever it succeeds. -/
theorem join_wf (u o : Tree α) (i : Nat) (u' : Tree α)
    (h : u.join o i = some u') : u'.wf = true := by
  obtain ⟨root, cur⟩ := u
  cases root with
  | none => simp [Tree.join] at h
  | some g =>
    cases ho : o.root with
    | none => rw [Tree.join, ho] at h; cases h
    | some og =>
      cases cur with
      | none => rw [Tree.join, ho] at h; cases h
      | some p =>
        rw [Tree.join, ho] at h
        simp only at h
        cases hgp : GNode.get? p g with
        | none => simp only [hgp] at h; cases h
        | some n =>
          simp only [hgp] at h
          by_cases hi : i > n.childs.length
          · rw [if_pos hi] at h; cases h
          · rw [if_neg hi] at h
            cases hm : GNode.modifyAt
                (fun m => GNode.node m.elem (insertList i og m.childs)) p g with
            | none => simp only [hm] at h; cases h
            | some g' =>
              simp only [hm, Option.some.injEq] at h
              subst h
              obtain ⟨n', _, h2⟩ := GNode.get?_of_modifyAt _ p g g' hm
              rw [wf_mk_some, h2]
              rfl

/-- into_vec returns a tree satisfying the invariant whenever it succeeds. -/
theorem into_vec_wf (u : Tree α) (l' : List α) (u' : Tree α)
    (h : u.into_vec = some (l', u')) : u'.wf = true := by
  obtain ⟨root, cur⟩ := u
  cases root with
  | none => simp [Tree.into_vec] at h
  | some g =>
    cases cur with
    | none => simp [Tree.into_vec] at h
    | some p =>
      simp only [Tree.into_vec] at h
      by_cases hp : p.isEmpty = true
      · rw [if_pos hp] at h
        rw [Option.some.injEq, Prod.mk.injEq] at h
        obtain ⟨-, h2⟩ := h
        subst h2
        rfl
      · rw [if_neg hp] at h
        cases hgp : GNode.get? p g with
        | none => simp only [hgp] at h; cases h
        | some old =>
          cases hlast : p.getLast? with
          | none => simp only [hgp, hlast] at h; cases h
          | some i =>
            simp only [hgp, hlast] at h
            cases hasc : Tree.ascend (Tree.mk (some g) (some p)) with
            | none => simp only [hasc] at h; cases h
            | some t₁ =>
              simp only [hasc] at h
              cases hsp : t₁.split i with
              | none => simp only [hsp] at h; cases h
              | some pair =>
                obtain ⟨t₂, srest⟩ := pair
                simp only [hsp, Option.some.injEq, Prod.mk.injEq] at h
                obtain ⟨-, h2⟩ := h
                subst h2
                exact (split_wf t₁ i t₂ srest hsp).1

/-- clone of a tree satisfying the invariant satisfies it as well. -/
theorem clone_wf (u : Tree α) (hu : u.wf = true) (u' : Tree α)
    (h : u.clone = some u') : u'.wf = true := by
  obtain ⟨root, cur⟩ := u
  cases root with
  | none => simp [Tree.clone] at h
  | some g =>
    cases cur with
    | none => simp [Tree.clone] at h
    | some p =>
      rw [wf_mk_some] at hu
      simp only [Tree.clone, Option.some.injEq] at h
      subst h
      have h1 : (cloneRec g [] p).1 = g := cloneRec_fst g [] p
      have h2 : (cloneRec g [] p).2 = some p := by
        have hf := cloneRec_snd_found g [] p hu
        rw [List.nil_append] at hf
        exact hf
      rw [h1, h2, wf_mk_some]
      exact hu

/-- C3: every tree state reachable through the public operations satisfies
the data-model invariant: current is null exactly when root is null, and a
non-null current points at a node reachable from root.  The constructors
establish it, and every operation returns only trees satisfying it whenever
it succeeds (clone needs the input invariant; for the others success alone
suffices).  The tree emptied by into_vec at the root satisfies it with both
pointers null, and the donor of join is consumed by the call, so no donor
state remains observable. -/
theorem C3_state_invariant (α : Type) (x : α) (l : List α) (t o : Tree α) (i : Nat)
    (ht : t.wf = true) :
    (Tree.from_element x).wf = true ∧
    (Tree.defaultTree : Tree α).wf = true ∧
    (∀ t', t.push x = some t' → t'.wf = true) ∧
    (∀ t', t.push_iter l = some t' → t'.wf = true) ∧
    (∀ t', t.insert i x = some t' → t'.wf = true) ∧
    (∀ t', t.navigate_to i = some t' → t'.wf = true) ∧
    (∀ t', t.ascend = some t' → t'.wf = true) ∧
    (∀ t', t.go_to_root = some t' → t'.wf = true) ∧
    (∀ t' s, t.split i = some (t', s) → t'.wf = true ∧ s.wf = true) ∧
    (∀ t', t.join o i = some t' → t'.wf = true) ∧
    (∀ l' t', t.into_vec = some (l', t') → t'.wf = true) ∧
    (∀ t', t.clone = some t' → t'.wf = true) :=
  ⟨rfl, rfl,
    fun t' h => push_wf t x t' h,
    fun t' h => push_iter_wf l t t' ht h,
    fun t' h => insert_wf t i x t' h,
    fun t' h => navigate_to_wf t i t' h,
    fun t' h => ascend_wf t t' h,
    fun t' h => go_to_root_wf t t' h,
    fun t' s h => split_wf t i t' s h,
    fun t' h => join_wf t o i t' h,
    fun l' t' h => into_vec_wf t l' t' h,
    fun t' h => clone_wf t ht t' h⟩

/-- Witness for C3 on a concrete two-node tree. -/
theorem C3_witness :
    (Tree.from_element (1 : Nat)).wf = true ∧
    (Tree.defaultTree : Tree Nat).wf = true ∧
    (∀ t', (Tree.from_element (1 : Nat)).push 2 = some t' → t'.wf = true) := by
  obtain ⟨h1, h2, h3, -⟩ :=
    C3_state_invariant Nat 2 [3] (Tree.from_element 1) (Tree.from_element 4) 0
      (by decide)
  exact ⟨h1, h2, h3⟩

end Claims

end Gtree
